import Mathlib

/-
Verification of the schema-migration orchestration subsystem
(`src/backend/src/database/dbMigrate.ts`, class `DatabaseMigrationManager`).

Shallow embedding conventions:
* A directory is a `List FsFile` (file name plus byte content as a `String`).
* The MD5 digest is abstracted as a parameter `hash : String → String`
  applied to a file's content (`getFileMd5` reads the file and hashes the
  content, so it factors through the content).
* The `migrations` ledger table is a `List AppliedMigration`; the SQL
  `SELECT ... ORDER BY version::int` is modelled by a stable merge sort on
  the version.  `version BIGINT` round-trips through `parseInt(r.version, 10)`
  in the source, which is the identity on decimal numerals, so `version`
  is modelled directly as a `Nat`.
* Whether a migration body succeeds when executed against the database,
  and whether a procedural script module exports an `up` routine, are
  abstracted as Boolean parameters `execOk, hasUp : FsFile → Bool`.
* The committed transactional effect of a migration is recorded abstractly
  as its file name appended to `MigState.effects`; a rolled-back migration
  leaves the state unchanged.
* Thrown JS exceptions become explicit `MigError` values; a run returns the
  final persistent database state together with the error it propagated,
  if any (the database state survives a thrown exception).
-/

namespace DbMigrate

/-- A file present in a namespace's migration directory: its name and its
byte content. -/
structure FsFile where
  name : String
  content : String
  deriving DecidableEq, Repr

/-- A discovered migration file (interface `MigrationFile` in the source;
`fullPath` is omitted because a file is looked up in the directory by name). -/
structure MigrationFile where
  name : String
  version : Nat
  deriving DecidableEq, Repr

/-- A row of the `migrations` ledger table (interface `AppliedMigration`). -/
structure AppliedMigration where
  version : Nat
  name : String
  md5 : String
  deriving DecidableEq, Repr

/-- The persistent database state of one schema namespace: the ledger table
plus the abstract committed effects of executed migrations. -/
structure MigState where
  ledger : List AppliedMigration
  effects : List String
  deriving DecidableEq, Repr

/-- The errors thrown by the migration manager. -/
inductive MigError where
  | sequenceViolation (expected : Nat) (foundFile : String)
  | tamperedMigration (name expectedMd5 foundMd5 : String)
  | appliedMigrationMissing (name : String)
  | migrationFailed (name cause : String)
  | fileUnreadable (name : String)
  deriving DecidableEq, Repr

deriving instance DecidableEq for Except

/-- Model of `getFileMd5`: read the file's content and hash it.  The digest
is a function of the byte content alone. -/
def getFileMd5 (hash : String → String) (f : FsFile) : String :=
  hash f.content

/-- Model of JS `String.prototype.endsWith`, used by the extension filter. -/
def strEndsWith (s suffix : String) : Bool :=
  List.isSuffixOf suffix.toList s.toList

/-- Decimal value of a run of digit characters (JS `parseInt(ds, 10)`). -/
def digitsToNat (ds : List Char) : Nat :=
  ds.foldl (fun a c => 10 * a + (c.toNat - 48)) 0

/-- Model of `extractVersion`: the regex `^(\d+)-` — a non-empty leading run
of decimal digits immediately followed by `-`; the version is the digit run
parsed as decimal.  Returns `none` when the name does not match. -/
def extractVersion (name : String) : Option Nat :=
  if (name.toList.takeWhile Char.isDigit).isEmpty then none
  else
    match name.toList.drop (name.toList.takeWhile Char.isDigit).length with
    | '-' :: _ => some (digitsToNat (name.toList.takeWhile Char.isDigit))
    | _ => none

/-- The extension filter of `getPendingMigration`:
`f.endsWith('.js') || f.endsWith('.ts') || f.endsWith('.sql')`. -/
def hasMigrationExt (f : String) : Bool :=
  strEndsWith f ".js" || strEndsWith f ".ts" || strEndsWith f ".sql"

/-- The discovered migration files before sorting: filter by extension, parse
the version, drop files whose version is `null`. -/
def parsedMigrations (files : List String) : List MigrationFile :=
  (files.filter hasMigrationExt).filterMap
    (fun name => (extractVersion name).map (fun v => ⟨name, v⟩))

/-- `allMigrations` of `getPendingMigration`: discovered files sorted by
ascending version.  JS `.sort((a, b) => a.version - b.version)` is a stable
sort under the version key, and a stable sort's output is determined by the
key order alone, so it is modelled by stable insertion sort. -/
def allMigrationsOf (files : List String) : List MigrationFile :=
  (parsedMigrations files).insertionSort (fun a b => a.version ≤ b.version)

/-- The version-skipping guard of `getPendingMigration`: index `i` of the
pending list must carry version `expected + i`, otherwise a mismatch error
naming the expected version and the offending file is thrown. -/
def checkSequence (expected : Nat) : List MigrationFile → Except MigError Unit
  | [] => .ok ()
  | m :: rest =>
    if m.version = expected then checkSequence (expected + 1) rest
    else .error (.sequenceViolation expected m.name)

/-- Model of `getPendingMigration`: discover and sort the directory's
migration files, drop the applied versions, and enforce that the remaining
versions continue the ledger without a gap
(`appliedVersions.at(-1) ?? 0` is the last row of the version-ordered
ledger read). -/
def getPendingMigration (appliedMigrations : List AppliedMigration)
    (files : List String) : Except MigError (List MigrationFile) :=
  let allMigrations := allMigrationsOf files
  let appliedVersions := appliedMigrations.map (·.version)
  let lastAppliedVersion := appliedVersions.getLast?.getD 0
  let pendingMigrations :=
    allMigrations.filter (fun m => !(appliedVersions.contains m.version))
  match checkSequence (lastAppliedVersion + 1) pendingMigrations with
  | .error e => .error e
  | .ok _ => .ok pendingMigrations

/-- Look a file up by name in the directory (`fs.readFile` on the path the
manager built by joining the directory with the name). -/
def findFile (dir : List FsFile) (name : String) : Option FsFile :=
  dir.find? (fun f => f.name = name)

/-- Model of the `storage.executed` callback: walk the applied rows in ledger
order, re-hash each recorded file and compare with the recorded digest.  A
missing file (`ENOENT` from `fs.readFile`) becomes the applied-migration-
missing error, a digest mismatch the tamper error; otherwise the applied
names are returned. -/
def executed (hash : String → String) (dir : List FsFile) :
    List AppliedMigration → Except MigError (List String)
  | [] => .ok []
  | row :: rest =>
    match findFile dir row.name with
    | none => .error (.appliedMigrationMissing row.name)
    | some f =>
      if getFileMd5 hash f = row.md5 then
        match executed hash dir rest with
        | .error e => .error e
        | .ok names => .ok (row.name :: names)
      else .error (.tamperedMigration row.name row.md5 (getFileMd5 hash f))

/-- Model of the `storage.logMigration` callback: parse the version from the
migration name (returning unchanged when it is `null`), re-read and hash the
file, and insert the ledger row.  A missing file would make `getFileMd5`
throw. -/
def logMigration (hash : String → String) (dir : List FsFile)
    (ledger : List AppliedMigration) (name : String) :
    Except MigError (List AppliedMigration) :=
  match extractVersion name with
  | none => .ok ledger
  | some version =>
    match findFile dir name with
    | none => .error (.fileUnreadable name)
    | some f => .ok (ledger ++ [⟨version, name, getFileMd5 hash f⟩])

/-- Model of the `storage.unlogMigration` callback: parse the version from the
migration name (returning unchanged when it is `null`) and delete the ledger
rows carrying that version.  The string-or-object argument of the source
collapses to the name. -/
def unlogMigration (ledger : List AppliedMigration) (name : String) :
    List AppliedMigration :=
  match extractVersion name with
  | none => ledger
  | some version => ledger.filter (fun r => !(r.version = version))

/-- Model of the per-migration `up` closure: `BEGIN`, then either execute the
SQL file's text or load the script and call its exported `up`, then `COMMIT`;
any failure (`SQL` error, missing `up` export, import error, thrown
exception) triggers `ROLLBACK`, leaving the state unchanged, and rethrows. -/
def up (execOk hasUp : FsFile → Bool) (dir : List FsFile) (st : MigState)
    (m : MigrationFile) : Except MigError MigState :=
  match findFile dir m.name with
  | none => .error (.migrationFailed m.name "read or import failed")
  | some f =>
    if strEndsWith m.name ".sql" then
      if execOk f then .ok { st with effects := st.effects ++ [m.name] }
      else .error (.migrationFailed m.name "sql execution error")
    else
      if hasUp f then
        if execOk f then .ok { st with effects := st.effects ++ [m.name] }
        else .error (.migrationFailed m.name "up routine threw")
      else .error (.migrationFailed m.name "does not export an up function")

/-- Whether the `up` closure for `m` would commit: the file is readable and
its body succeeds (for a script, the module must also export `up`). -/
def upOk (execOk hasUp : FsFile → Bool) (dir : List FsFile)
    (m : MigrationFile) : Bool :=
  match findFile dir m.name with
  | none => false
  | some f =>
    if strEndsWith m.name ".sql" then execOk f else hasUp f && execOk f

/-- Modelled from the spec: the step loop of the third-party runner's `up()`
(§4.6) — pending migrations run strictly sequentially; each success is
followed by `logMigration`, and the first thrown error stops the loop and
propagates while the database state reached so far persists. -/
def runPending (hash : String → String) (execOk hasUp : FsFile → Bool)
    (dir : List FsFile) : List MigrationFile → MigState →
    MigState × Option MigError
  | [], st => (st, none)
  | m :: rest, st =>
    match up execOk hasUp dir st m with
    | .error e => (st, some e)
    | .ok st1 =>
      match logMigration hash dir st1.ledger m.name with
      | .error e => (st1, some e)
      | .ok ledger2 => runPending hash execOk hasUp dir rest { st1 with ledger := ledger2 }

/-- The ledger read `SELECT version, name, md5 FROM migrations ORDER BY
version::int`, modelled by a stable sort on the version. -/
def sortLedger (ledger : List AppliedMigration) : List AppliedMigration :=
  ledger.insertionSort (fun a b => a.version ≤ b.version)

/-- Model of `runMigrationForSchema` for one namespace: read the applied
rows in version order, compute the pending set (throwing on a sequence
violation), then run the step runner, whose `up()` first calls
`storage.executed` — the integrity check — filters the configured migrations
to those not yet executed, and runs each in order (loop modelled from the
spec, §4.6).  The returned pair is the persistent state and the propagated
error, if any. -/
def runMigrationForSchema (hash : String → String)
    (execOk hasUp : FsFile → Bool) (dir : List FsFile) (st : MigState) :
    MigState × Option MigError :=
  let appliedMigrations := sortLedger st.ledger
  match getPendingMigration appliedMigrations (dir.map (·.name)) with
  | .error e => (st, some e)
  | .ok pendingMigrations =>
    match executed hash dir appliedMigrations with
    | .error e => (st, some e)
    | .ok executedNames =>
      runPending hash execOk hasUp dir
        (pendingMigrations.filter (fun m => !(executedNames.contains m.name))) st

/-- Model of `handleMigration`: run the main namespace's migration inside a
`try` whose `catch` only logs the error, so the call always returns
normally. -/
def handleMigration (hash : String → String) (execOk hasUp : FsFile → Bool)
    (dir : List FsFile) (st : MigState) : MigState × Option MigError :=
  match runMigrationForSchema hash execOk hasUp dir st with
  | (st1, some _e) => (st1, none)
  | (st1, none) => (st1, none)

/-- Model of `main`: exit status 1 only on an error escaping
`handleMigration`; otherwise the final `process.exit()` reports success. -/
def processExitCode (hash : String → String) (execOk hasUp : FsFile → Bool)
    (dir : List FsFile) (st : MigState) : Nat :=
  match (handleMigration hash execOk hasUp dir st).2 with
  | some _ => 1
  | none => 0

/-- Whether one applied row passes the integrity check of `executed`: its
file is present and hashes to the recorded digest. -/
def rowOk (hash : String → String) (dir : List FsFile)
    (row : AppliedMigration) : Bool :=
  match findFile dir row.name with
  | none => false
  | some f => getFileMd5 hash f == row.md5

/-- The ledger row `logMigration` writes for a freshly applied migration:
its version, its name, and the digest of the file's current content. -/
def rowFor (hash : String → String) (dir : List FsFile)
    (m : MigrationFile) : AppliedMigration :=
  ⟨m.version, m.name, hash (((findFile dir m.name).map (·.content)).getD "")⟩

/- ------------------------------------------------------------------ -/
/- Helper lemmas.                                                      -/
/- ------------------------------------------------------------------ -/

theorem takeWhile_append_of_all {α : Type} (p : α → Bool) (ds : List α)
    (c : α) (rest : List α) (hds : ∀ x ∈ ds, p x = true) (hc : p c = false) :
    (ds ++ c :: rest).takeWhile p = ds := by
  induction ds with
  | nil => simp [List.takeWhile, hc]
  | cons a t ih =>
    have ha : p a = true := hds a (List.mem_cons_self a t)
    simp only [List.cons_append, List.takeWhile_cons, ha, if_true]
    rw [ih (fun x hx => hds x (List.mem_cons_of_mem a hx))]

theorem mem_takeWhile_sat {α : Type} (p : α → Bool) (l : List α) :
    ∀ x ∈ l.takeWhile p, p x = true := by
  induction l with
  | nil => intro x hx; simp [List.takeWhile] at hx
  | cons a t ih =>
    intro x hx
    by_cases ha : p a = true
    · simp only [List.takeWhile_cons, ha, if_true] at hx
      rcases List.mem_cons.mp hx with h | h
      · rw [h]; exact ha
      · exact ih x h
    · simp only [List.takeWhile_cons] at hx
      rw [Bool.not_eq_true] at ha
      rw [ha] at hx
      simp at hx

theorem drop_takeWhile_length {α : Type} (p : α → Bool) (l : List α) :
    l.drop (l.takeWhile p).length = l.dropWhile p := by
  induction l with
  | nil => rfl
  | cons a t ih =>
    by_cases ha : p a = true
    · simp [List.takeWhile_cons, List.dropWhile_cons, ha, ih]
    · rw [Bool.not_eq_true] at ha
      simp [List.takeWhile_cons, List.dropWhile_cons, ha]

/-- Characterisation of the version regex `^(\d+)-`: a name parses to
version `v` exactly when it is a non-empty digit run followed by `-`, with
`v` the decimal value of the run. -/
theorem extractVersion_eq_some_iff (name : String) (v : Nat) :
    extractVersion name = some v ↔
      ∃ ds rest, name.toList = ds ++ '-' :: rest ∧ ds ≠ [] ∧
        (∀ c ∈ ds, c.isDigit = true) ∧ v = digitsToNat ds := by
  constructor
  · intro h
    unfold extractVersion at h
    by_cases hempty : (name.toList.takeWhile Char.isDigit).isEmpty = true
    · rw [if_pos hempty] at h; exact Option.noConfusion h
    · rw [if_neg hempty] at h
      split at h
      · rename_i tail heq
        injection h with hv
        refine ⟨name.toList.takeWhile Char.isDigit, tail, ?_, ?_,
          mem_takeWhile_sat _ _, hv.symm⟩
        · have h2 := drop_takeWhile_length Char.isDigit name.toList
          rw [heq] at h2
          have h1 := List.takeWhile_append_dropWhile Char.isDigit name.toList
          rw [← h2] at h1
          exact h1.symm
        · intro hnil
          rw [List.isEmpty_iff] at hempty
          exact hempty hnil
      · exact Option.noConfusion h
  · rintro ⟨ds, rest, hsplit, hnil, hdig, hv⟩
    have htake : name.toList.takeWhile Char.isDigit = ds := by
      rw [hsplit]
      exact takeWhile_append_of_all _ _ _ _ hdig (by decide)
    have hdrop : name.toList.drop (name.toList.takeWhile Char.isDigit).length
        = '-' :: rest := by
      rw [htake, hsplit]
      exact List.drop_left _ _
    unfold extractVersion
    rw [if_neg (by rw [List.isEmpty_iff, htake]; exact hnil), hdrop, htake, hv]
    rfl

theorem mem_parsedMigrations (files : List String) (m : MigrationFile) :
    m ∈ parsedMigrations files ↔
      m.name ∈ files ∧ hasMigrationExt m.name = true ∧
        extractVersion m.name = some m.version := by
  unfold parsedMigrations
  rw [List.mem_filterMap]
  constructor
  · rintro ⟨a, ha, hfa⟩
    rcases Option.map_eq_some'.mp hfa with ⟨v, hva, hvm⟩
    have hname : m.name = a := by rw [← hvm]
    have hver : m.version = v := by rw [← hvm]
    rcases List.mem_filter.mp ha with ⟨hmem, hext⟩
    exact ⟨hname ▸ hmem, hname ▸ hext, by rw [hname, hva, hver]⟩
  · rintro ⟨hmem, hext, hver⟩
    refine ⟨m.name, List.mem_filter.mpr ⟨hmem, hext⟩, ?_⟩
    rw [hver]
    rfl

theorem mem_allMigrationsOf (files : List String) (m : MigrationFile) :
    m ∈ allMigrationsOf files ↔ m ∈ parsedMigrations files :=
  (List.perm_insertionSort _ _).mem_iff

theorem checkSequence_ok (p : List MigrationFile) :
    ∀ e : Nat, checkSequence e p = .ok () →
      p.map (·.version) = List.range' e p.length := by
  induction p with
  | nil => intro e _; rfl
  | cons m rest ih =>
    intro e h
    unfold checkSequence at h
    by_cases hv : m.version = e
    · rw [if_pos hv] at h
      simp only [List.map_cons, List.length_cons, List.range'_succ, hv]
      rw [ih (e + 1) h]
    · rw [if_neg hv] at h
      exact Except.noConfusion h

theorem checkSequence_ok_or (p : List MigrationFile) :
    ∀ e : Nat, checkSequence e p = .ok () ∨
      ∃ a b, checkSequence e p = .error (.sequenceViolation a b) := by
  induction p with
  | nil => intro e; exact Or.inl rfl
  | cons m rest ih =>
    intro e
    unfold checkSequence
    by_cases hv : m.version = e
    · rw [if_pos hv]; exact ih (e + 1)
    · rw [if_neg hv]; exact Or.inr ⟨e, m.name, rfl⟩

theorem getPendingMigration_eq_ok (applied : List AppliedMigration)
    (files : List String) (p : List MigrationFile)
    (h : getPendingMigration applied files = .ok p) :
    p = (allMigrationsOf files).filter
        (fun m => !((applied.map (·.version)).contains m.version)) ∧
      checkSequence ((applied.map (·.version)).getLast?.getD 0 + 1) p
        = .ok () := by
  simp only [getPendingMigration] at h
  split at h
  · exact Except.noConfusion h
  · rename_i u heq
    injection h with h
    cases u
    exact ⟨h.symm, h ▸ heq⟩

theorem getPendingMigration_eq_error (applied : List AppliedMigration)
    (files : List String) (e : MigError)
    (h : checkSequence ((applied.map (·.version)).getLast?.getD 0 + 1)
        ((allMigrationsOf files).filter
          (fun m => !((applied.map (·.version)).contains m.version))) =
        .error e) :
    getPendingMigration applied files = .error e := by
  simp only [getPendingMigration]
  rw [h]

/-- Elements of a pending list returned by `getPendingMigration` were
discovered in the directory, parse to their own version, and are not yet
applied. -/
theorem pending_facts (applied : List AppliedMigration) (files : List String)
    (p : List MigrationFile) (h : getPendingMigration applied files = .ok p) :
    ∀ m ∈ p, m.name ∈ files ∧ hasMigrationExt m.name = true ∧
      extractVersion m.name = some m.version ∧
      ¬(m.version ∈ applied.map (·.version)) := by
  intro m hm
  rcases getPendingMigration_eq_ok applied files p h with ⟨hp, _⟩
  rw [hp] at hm
  rcases List.mem_filter.mp hm with ⟨hall, hflt⟩
  rcases (mem_parsedMigrations files m).mp ((mem_allMigrationsOf files m).mp hall)
    with ⟨h1, h2, h3⟩
  refine ⟨h1, h2, h3, ?_⟩
  intro hmem
  rw [Bool.not_eq_eq_eq_not, Bool.not_true, List.contains_eq_any_beq] at hflt
  have : ((applied.map (·.version)).any fun x => m.version == x) = true := by
    rw [List.any_eq_true]
    exact ⟨m.version, hmem, by simp⟩
  rw [this] at hflt
  exact Bool.noConfusion hflt

/-- In a `≤`-sorted list of naturals, the last element (`.at(-1) ?? 0`) is
the maximum (`0` when the list is empty). -/
theorem sorted_getLast_eq_max (l : List Nat)
    (h : List.Sorted (· ≤ ·) l) : l.getLast?.getD 0 = l.foldr max 0 := by
  induction l with
  | nil => rfl
  | cons a t ih =>
    rcases List.sorted_cons.mp h with ⟨hle, hts⟩
    cases t with
    | nil => simp
    | cons b t2 =>
      have hrec := ih hts
      have h1 : (a :: b :: t2).getLast?.getD 0 = (b :: t2).getLast?.getD 0 := by
        rfl
      rw [h1, hrec]
      have hb : b ≤ (b :: t2).foldr max 0 := by
        simp only [List.foldr_cons]
        exact Nat.le_max_left _ _
      have ha : a ≤ (b :: t2).foldr max 0 :=
        Nat.le_trans (hle b (List.mem_cons_self b t2)) hb
      simp only [List.foldr_cons] at ha ⊢
      exact (Nat.max_eq_right ha).symm

theorem rowOk_iff (hash : String → String) (dir : List FsFile)
    (row : AppliedMigration) :
    rowOk hash dir row = true ↔
      ∃ f, findFile dir row.name = some f ∧ getFileMd5 hash f = row.md5 := by
  unfold rowOk
  cases hf : findFile dir row.name with
  | none => simp
  | some f =>
    simp only [beq_iff_eq, Option.some.injEq]
    constructor
    · intro h; exact ⟨f, rfl, h⟩
    · rintro ⟨g, hg, hmd⟩; rw [hg]; exact hmd

theorem executed_ok_of_all (hash : String → String) (dir : List FsFile)
    (l : List AppliedMigration) (h : ∀ r ∈ l, rowOk hash dir r = true) :
    executed hash dir l = .ok (l.map (·.name)) := by
  induction l with
  | nil => rfl
  | cons row rest ih =>
    rcases (rowOk_iff hash dir row).mp (h row (List.mem_cons_self row rest))
      with ⟨f, hf, hmd⟩
    have ht := ih (fun r hr => h r (List.mem_cons_of_mem row hr))
    simp only [executed, hf, if_pos hmd, ht, List.map_cons]

theorem executed_ok_inv (hash : String → String) (dir : List FsFile)
    (l : List AppliedMigration) (ns : List String)
    (h : executed hash dir l = .ok ns) :
    ns = l.map (·.name) ∧ ∀ r ∈ l, rowOk hash dir r = true := by
  induction l generalizing ns with
  | nil =>
    unfold executed at h
    injection h with h
    exact ⟨h.symm, by intro r hr; simp at hr⟩
  | cons row rest ih =>
    unfold executed at h
    cases hf : findFile dir row.name with
    | none =>
      simp only [hf] at h
      exact Except.noConfusion h
    | some f =>
      simp only [hf] at h
      by_cases hmd : getFileMd5 hash f = row.md5
      · rw [if_pos hmd] at h
        cases hrec : executed hash dir rest with
        | error e =>
          simp only [hrec] at h
          exact Except.noConfusion h
        | ok names =>
          simp only [hrec] at h
          injection h with h
          rcases ih names hrec with ⟨h1, h2⟩
          constructor
          · rw [← h, h1]; rfl
          · intro r hr
            rcases List.mem_cons.mp hr with hr | hr
            · rw [hr, rowOk_iff]; exact ⟨f, hf, hmd⟩
            · exact h2 r hr
      · rw [if_neg hmd] at h
        exact Except.noConfusion h

theorem executed_missing (hash : String → String) (dir : List FsFile)
    (pre : List AppliedMigration) (row : AppliedMigration)
    (rest : List AppliedMigration)
    (hpre : ∀ r ∈ pre, rowOk hash dir r = true)
    (hf : findFile dir row.name = none) :
    executed hash dir (pre ++ row :: rest) =
      .error (.appliedMigrationMissing row.name) := by
  induction pre with
  | nil =>
    rw [List.nil_append]
    simp only [executed, hf]
  | cons r0 t ih =>
    rcases (rowOk_iff hash dir r0).mp (hpre r0 (List.mem_cons_self r0 t))
      with ⟨f, hf0, hmd⟩
    have ht := ih (fun r hr => hpre r (List.mem_cons_of_mem r0 hr))
    rw [List.cons_append]
    simp only [executed, hf0, if_pos hmd, ht]

theorem executed_tampered (hash : String → String) (dir : List FsFile)
    (pre : List AppliedMigration) (row : AppliedMigration)
    (rest : List AppliedMigration) (f : FsFile)
    (hpre : ∀ r ∈ pre, rowOk hash dir r = true)
    (hf : findFile dir row.name = some f)
    (hmd : getFileMd5 hash f ≠ row.md5) :
    executed hash dir (pre ++ row :: rest) =
      .error (.tamperedMigration row.name row.md5 (getFileMd5 hash f)) := by
  induction pre with
  | nil =>
    rw [List.nil_append]
    simp only [executed, hf, if_neg hmd]
  | cons r0 t ih =>
    rcases (rowOk_iff hash dir r0).mp (hpre r0 (List.mem_cons_self r0 t))
      with ⟨g, hg0, hmd0⟩
    have ht := ih (fun r hr => hpre r (List.mem_cons_of_mem r0 hr))
    rw [List.cons_append]
    simp only [executed, hg0, if_pos hmd0, ht]

theorem up_ok_of_upOk (execOk hasUp : FsFile → Bool) (dir : List FsFile)
    (st : MigState) (m : MigrationFile)
    (h : upOk execOk hasUp dir m = true) :
    up execOk hasUp dir st m =
      .ok { st with effects := st.effects ++ [m.name] } := by
  unfold upOk at h
  cases hf : findFile dir m.name with
  | none => rw [hf] at h; exact Bool.noConfusion h
  | some f =>
    simp only [hf] at h
    by_cases hsql : strEndsWith m.name ".sql" = true
    · rw [if_pos hsql] at h
      simp only [up, hf, if_pos hsql, if_pos h]
    · rw [if_neg hsql] at h
      rw [Bool.and_eq_true] at h
      rcases h with ⟨h1, h2⟩
      simp only [up, hf, if_neg hsql, if_pos h1, if_pos h2]

theorem up_error_of_not_upOk (execOk hasUp : FsFile → Bool)
    (dir : List FsFile) (st : MigState) (m : MigrationFile)
    (h : upOk execOk hasUp dir m = false) :
    ∃ cause, up execOk hasUp dir st m =
      .error (.migrationFailed m.name cause) := by
  unfold upOk at h
  cases hf : findFile dir m.name with
  | none =>
    refine ⟨"read or import failed", ?_⟩
    simp only [up, hf]
  | some f =>
    simp only [hf] at h
    by_cases hsql : strEndsWith m.name ".sql" = true
    · rw [if_pos hsql] at h
      refine ⟨"sql execution error", ?_⟩
      simp only [up, hf, if_pos hsql, h, Bool.false_eq_true, if_false]
    · rw [if_neg hsql] at h
      by_cases hu : hasUp f = true
      · have h2 : execOk f = false := by
          rw [hu] at h
          simpa using h
        refine ⟨"up routine threw", ?_⟩
        simp only [up, hf, if_neg hsql, if_pos hu, h2, Bool.false_eq_true,
          if_false]
      · refine ⟨"does not export an up function", ?_⟩
        rw [Bool.not_eq_true] at hu
        simp only [up, hf, if_neg hsql, hu, Bool.false_eq_true, if_false]

theorem logMigration_pending (hash : String → String) (dir : List FsFile)
    (ledger : List AppliedMigration) (m : MigrationFile) (f : FsFile)
    (hx : extractVersion m.name = some m.version)
    (hf : findFile dir m.name = some f) :
    logMigration hash dir ledger m.name =
      .ok (ledger ++ [rowFor hash dir m]) := by
  simp only [logMigration, rowFor, hx, hf]
  rfl

theorem upOk_findFile (execOk hasUp : FsFile → Bool) (dir : List FsFile)
    (m : MigrationFile) (h : upOk execOk hasUp dir m = true) :
    ∃ f, findFile dir m.name = some f := by
  unfold upOk at h
  cases hf : findFile dir m.name with
  | none => rw [hf] at h; exact Bool.noConfusion h
  | some f => exact ⟨f, rfl⟩

/-- One fully successful step of the runner loop. -/
theorem runPending_cons_ok (hash : String → String)
    (execOk hasUp : FsFile → Bool) (dir : List FsFile) (m : MigrationFile)
    (rest : List MigrationFile) (st : MigState)
    (hx : extractVersion m.name = some m.version)
    (hup : upOk execOk hasUp dir m = true) :
    runPending hash execOk hasUp dir (m :: rest) st =
      runPending hash execOk hasUp dir rest
        { ledger := st.ledger ++ [rowFor hash dir m],
          effects := st.effects ++ [m.name] } := by
  rcases upOk_findFile execOk hasUp dir m hup with ⟨f, hf⟩
  have hu := up_ok_of_upOk execOk hasUp dir st m hup
  have hl := logMigration_pending hash dir (st.ledger ++ []) m f hx hf
  simp only [runPending, hu, logMigration_pending hash dir st.ledger m f hx hf]

/-- A batch of fully successful steps of the runner loop. -/
theorem runPending_append_ok (hash : String → String)
    (execOk hasUp : FsFile → Bool) (dir : List FsFile)
    (pre : List MigrationFile) :
    ∀ (rest : List MigrationFile) (st : MigState),
    (∀ m ∈ pre, extractVersion m.name = some m.version ∧
      upOk execOk hasUp dir m = true) →
    runPending hash execOk hasUp dir (pre ++ rest) st =
      runPending hash execOk hasUp dir rest
        { ledger := st.ledger ++ pre.map (rowFor hash dir),
          effects := st.effects ++ pre.map (·.name) } := by
  induction pre with
  | nil =>
    intro rest st _
    simp only [List.nil_append, List.map_nil, List.append_nil]
  | cons m t ih =>
    intro rest st hall
    rcases hall m (List.mem_cons_self m t) with ⟨hx, hup⟩
    rw [List.cons_append,
      runPending_cons_ok hash execOk hasUp dir m (t ++ rest) st hx hup,
      ih rest _ (fun x hx2 => hall x (List.mem_cons_of_mem m hx2))]
    simp only [List.map_cons, List.append_assoc, List.cons_append,
      List.nil_append]

/-- A run of the loop over fully successful migrations commits each effect
and appends each fresh ledger row, in order, with no error. -/
theorem runPending_all_ok (hash : String → String)
    (execOk hasUp : FsFile → Bool) (dir : List FsFile)
    (p : List MigrationFile) (st : MigState)
    (hall : ∀ m ∈ p, extractVersion m.name = some m.version ∧
      upOk execOk hasUp dir m = true) :
    runPending hash execOk hasUp dir p st =
      ({ ledger := st.ledger ++ p.map (rowFor hash dir),
         effects := st.effects ++ p.map (·.name) }, none) := by
  have h := runPending_append_ok hash execOk hasUp dir p [] st hall
  rw [List.append_nil] at h
  exact h

/-- If the loop finished without an error, every migration in it succeeded
and the final state is the full batch of commits and ledger rows. -/
theorem runPending_none_inv (hash : String → String)
    (execOk hasUp : FsFile → Bool) (dir : List FsFile)
    (p : List MigrationFile) :
    ∀ (st st' : MigState),
    (∀ m ∈ p, extractVersion m.name = some m.version) →
    runPending hash execOk hasUp dir p st = (st', none) →
    (∀ m ∈ p, upOk execOk hasUp dir m = true) ∧
      st' = { ledger := st.ledger ++ p.map (rowFor hash dir),
              effects := st.effects ++ p.map (·.name) } := by
  induction p with
  | nil =>
    intro st st' _ h
    unfold runPending at h
    injection h with h1 _
    constructor
    · intro m hm; simp at hm
    · rw [← h1]
      cases st
      simp
  | cons m t ih =>
    intro st st' hx h
    have hxm := hx m (List.mem_cons_self m t)
    by_cases hup : upOk execOk hasUp dir m = true
    · rw [runPending_cons_ok hash execOk hasUp dir m t st hxm hup] at h
      rcases ih _ st' (fun x hx2 => hx x (List.mem_cons_of_mem m hx2)) h
        with ⟨h1, h2⟩
      constructor
      · intro x hx2
        rcases List.mem_cons.mp hx2 with hx2 | hx2
        · rw [hx2]; exact hup
        · exact h1 x hx2
      · rw [h2]
        simp only [List.map_cons, List.append_assoc, List.cons_append,
          List.nil_append]
    · rw [Bool.not_eq_true] at hup
      rcases up_error_of_not_upOk execOk hasUp dir st m hup with ⟨cause, hc⟩
      unfold runPending at h
      rw [hc] at h
      injection h with _ h2
      exact Option.noConfusion h2

/-- Unfolding `runMigrationForSchema` when the validator throws. -/
theorem run_of_pending_error (hash : String → String)
    (execOk hasUp : FsFile → Bool) (dir : List FsFile) (st : MigState)
    (e : MigError)
    (h : getPendingMigration (sortLedger st.ledger) (dir.map (·.name))
      = .error e) :
    runMigrationForSchema hash execOk hasUp dir st = (st, some e) := by
  simp only [runMigrationForSchema, h]

/-- Unfolding `runMigrationForSchema` when the integrity check throws. -/
theorem run_of_executed_error (hash : String → String)
    (execOk hasUp : FsFile → Bool) (dir : List FsFile) (st : MigState)
    (p : List MigrationFile) (e : MigError)
    (hp : getPendingMigration (sortLedger st.ledger) (dir.map (·.name))
      = .ok p)
    (he : executed hash dir (sortLedger st.ledger) = .error e) :
    runMigrationForSchema hash execOk hasUp dir st = (st, some e) := by
  simp only [runMigrationForSchema, hp, he]

/-- Unfolding `runMigrationForSchema` into the runner loop when both the
validator and the integrity check pass. -/
theorem run_of_checks_ok (hash : String → String)
    (execOk hasUp : FsFile → Bool) (dir : List FsFile) (st : MigState)
    (p : List MigrationFile) (ns : List String)
    (hp : getPendingMigration (sortLedger st.ledger) (dir.map (·.name))
      = .ok p)
    (he : executed hash dir (sortLedger st.ledger) = .ok ns) :
    runMigrationForSchema hash execOk hasUp dir st =
      runPending hash execOk hasUp dir
        (p.filter (fun m => !(ns.contains m.name))) st := by
  simp only [runMigrationForSchema, hp, he]

/-- The runner's executed-names filter keeps every pending migration: an
applied row's name cannot be a pending name, because both would parse to the
same version, which is both applied and not applied. -/
theorem pending_filter_eq_self (applied : List AppliedMigration)
    (p : List MigrationFile)
    (hwf : ∀ r ∈ applied, extractVersion r.name = some r.version)
    (hp : ∀ m ∈ p, extractVersion m.name = some m.version ∧
      ¬(m.version ∈ applied.map (·.version))) :
    p.filter (fun m => !((applied.map (·.name)).contains m.name)) = p := by
  rw [List.filter_eq_self]
  intro m hm
  rcases hp m hm with ⟨hx, hnv⟩
  have hc : (applied.map (·.name)).contains m.name = false := by
    rw [List.contains_eq_any_beq, Bool.eq_false_iff]
    intro hany
    rw [List.any_eq_true] at hany
    rcases hany with ⟨x, hxmem, hbeq⟩
    rcases List.mem_map.mp hxmem with ⟨r, hr, hrx⟩
    have hname : r.name = m.name := by
      rw [hrx]
      exact (beq_iff_eq.mp hbeq).symm
    have hver : extractVersion r.name = some r.version := hwf r hr
    rw [hname, hx] at hver
    injection hver with hver
    apply hnv
    rw [List.mem_map]
    exact ⟨r, hr, hver.symm⟩
  rw [hc]
  rfl

theorem contains_true_of_mem {α : Type} [BEq α] [LawfulBEq α] {l : List α}
    {a : α} (h : a ∈ l) : l.contains a = true := by
  rw [List.contains_eq_any_beq, List.any_eq_true]
  exact ⟨a, h, by simp⟩

theorem contains_false_of_not_mem {α : Type} [BEq α] [LawfulBEq α]
    {l : List α} {a : α} (h : ¬ a ∈ l) : l.contains a = false := by
  rw [List.contains_eq_any_beq, Bool.eq_false_iff]
  intro hany
  rw [List.any_eq_true] at hany
  rcases hany with ⟨x, hx, hbeq⟩
  exact h (beq_iff_eq.mp hbeq ▸ hx)

theorem sortLedger_mem (l : List AppliedMigration) (r : AppliedMigration) :
    r ∈ sortLedger l ↔ r ∈ l :=
  (List.perm_insertionSort _ _).mem_iff

theorem sortLedger_map_version_mem (l : List AppliedMigration) (v : Nat) :
    v ∈ (sortLedger l).map (·.version) ↔ v ∈ l.map (·.version) := by
  unfold sortLedger
  exact ((List.perm_insertionSort _ l).map
    (fun r : AppliedMigration => r.version)).mem_iff

theorem rowFor_eq (hash : String → String) (dir : List FsFile)
    (m : MigrationFile) (f : FsFile) (hf : findFile dir m.name = some f) :
    rowFor hash dir m = ⟨m.version, m.name, getFileMd5 hash f⟩ := by
  unfold rowFor
  rw [hf]
  rfl

theorem pending_nodup_versions (applied : List AppliedMigration)
    (files : List String) (p : List MigrationFile)
    (h : getPendingMigration applied files = .ok p) :
    (p.map (·.version)).Nodup := by
  rcases getPendingMigration_eq_ok applied files p h with ⟨_, hseq⟩
  rw [checkSequence_ok p _ hseq]
  exact List.nodup_range' _ _

/- ------------------------------------------------------------------ -/
/- Claim theorems.                                                     -/
/- ------------------------------------------------------------------ -/

/-- C1: for a version-ordered ledger, `getPendingMigration` either returns
the discovered-but-not-applied files, sorted ascending, whose versions are
exactly the contiguous run `lastApplied + 1, …, lastApplied + k` above the
maximal applied version, or it throws a sequence-violation error; and on
applied versions `{1, 2}` with discovered versions `{2, 4}` it throws the
error naming expected version `3` and the version-4 file. -/
theorem c1_computePending_contiguous_or_fails :
    (∀ (applied : List AppliedMigration) (files : List String),
      List.Sorted (· ≤ ·) (applied.map (·.version)) →
      (∃ p, getPendingMigration applied files = .ok p ∧
        p = (allMigrationsOf files).filter
          (fun m => !((applied.map (·.version)).contains m.version)) ∧
        p.map (·.version) =
          List.range' ((applied.map (·.version)).foldr max 0 + 1) p.length) ∨
      (∃ expected foundFile, getPendingMigration applied files
        = .error (.sequenceViolation expected foundFile))) ∧
    getPendingMigration [⟨1, "1-a.sql", "h1"⟩, ⟨2, "2-b.sql", "h2"⟩]
        ["2-b.sql", "4-d.sql"] =
      .error (.sequenceViolation 3 "4-d.sql") := by
  constructor
  · intro applied files hsorted
    rcases checkSequence_ok_or
        ((allMigrationsOf files).filter
          (fun m => !((applied.map (·.version)).contains m.version)))
        ((applied.map (·.version)).getLast?.getD 0 + 1) with hok | ⟨a, b, herr⟩
    · left
      refine ⟨_, ?_, rfl, ?_⟩
      · simp only [getPendingMigration, hok]
      · rw [← sorted_getLast_eq_max _ hsorted]
        exact checkSequence_ok _ _ hok
    · right
      exact ⟨a, b, getPendingMigration_eq_error applied files _ herr⟩
  · decide

/-- Witness for C1 at a concrete sorted ledger and directory listing. -/
theorem c1_computePending_contiguous_or_fails_witness :
    (∃ p, getPendingMigration [⟨1, "1-a.sql", "h1"⟩] ["1-a.sql", "2-b.sql"]
        = .ok p ∧
      p = (allMigrationsOf ["1-a.sql", "2-b.sql"]).filter
        (fun m => !((([⟨1, "1-a.sql", "h1"⟩] :
          List AppliedMigration).map (·.version)).contains m.version)) ∧
      p.map (·.version) =
        List.range' ((([⟨1, "1-a.sql", "h1"⟩] :
          List AppliedMigration).map (·.version)).foldr max 0 + 1)
          p.length) ∨
    (∃ expected foundFile,
      getPendingMigration [⟨1, "1-a.sql", "h1"⟩] ["1-a.sql", "2-b.sql"]
        = .error (.sequenceViolation expected foundFile)) :=
  c1_computePending_contiguous_or_fails.1 [⟨1, "1-a.sql", "h1"⟩]
    ["1-a.sql", "2-b.sql"] (by decide)

/-- C7 counterexample: `0-a.sql` is discovered as a migration with version
`0`, which is not a positive integer, so the claim that every discovered
version is positive fails. -/
theorem c7_version_positive_counterexample :
    ¬ (∀ (files : List String) (m : MigrationFile),
        m ∈ allMigrationsOf files → 1 ≤ m.version) := by
  intro h
  have h0 := h ["0-a.sql"] ⟨"0-a.sql", 0⟩ (by decide)
  exact absurd h0 (by decide)

/-- C7 (amended): a listed file is treated as a migration exactly when it
has a recognized extension and starts with a non-empty decimal digit run
followed by `-`; its version is that run's decimal value — a nonnegative
integer, zero permitted — and all other files are silently excluded. -/
theorem c7_discovery_characterisation (files : List String) (name : String) :
    ((∃ v, (⟨name, v⟩ : MigrationFile) ∈ allMigrationsOf files) ↔
      (name ∈ files ∧ hasMigrationExt name = true ∧
        ∃ ds rest, name.toList = ds ++ '-' :: rest ∧ ds ≠ [] ∧
          (∀ c ∈ ds, c.isDigit = true))) ∧
    (∀ v, (⟨name, v⟩ : MigrationFile) ∈ allMigrationsOf files →
      ∃ ds rest, name.toList = ds ++ '-' :: rest ∧ ds ≠ [] ∧
        (∀ c ∈ ds, c.isDigit = true) ∧ v = digitsToNat ds) := by
  constructor
  · constructor
    · rintro ⟨v, hv⟩
      rcases (mem_parsedMigrations files ⟨name, v⟩).mp
        ((mem_allMigrationsOf files ⟨name, v⟩).mp hv) with ⟨h1, h2, h3⟩
      rcases (extractVersion_eq_some_iff name v).mp h3
        with ⟨ds, rest, hs, hn, hd, _⟩
      exact ⟨h1, h2, ds, rest, hs, hn, hd⟩
    · rintro ⟨h1, h2, ds, rest, hs, hn, hd⟩
      refine ⟨digitsToNat ds, (mem_allMigrationsOf files _).mpr
        ((mem_parsedMigrations files _).mpr ⟨h1, h2, ?_⟩)⟩
      exact (extractVersion_eq_some_iff name (digitsToNat ds)).mpr
        ⟨ds, rest, hs, hn, hd, rfl⟩
  · intro v hv
    rcases (mem_parsedMigrations files ⟨name, v⟩).mp
      ((mem_allMigrationsOf files ⟨name, v⟩).mp hv) with ⟨_, _, h3⟩
    exact (extractVersion_eq_some_iff name v).mp h3

/-- Witness for C7's amended characterisation at a concrete file name. -/
theorem c7_discovery_characterisation_witness :
    ∃ v, (⟨"1-init.sql", v⟩ : MigrationFile) ∈
      allMigrationsOf ["1-init.sql"] :=
  (c7_discovery_characterisation ["1-init.sql"] "1-init.sql").1.mpr
    ⟨by decide, by decide, ['1'], "init.sql".toList, by decide, by decide,
      by decide⟩

/-- C9: `handleMigration` swallows every failure of the namespace run, so it
always returns normally and the process exit status is `0`. -/
theorem c9_top_level_failures_swallowed (hash : String → String)
    (execOk hasUp : FsFile → Bool) (dir : List FsFile) (st : MigState) :
    (handleMigration hash execOk hasUp dir st).2 = none ∧
      processExitCode hash execOk hasUp dir st = 0 := by
  unfold processExitCode handleMigration
  rcases runMigrationForSchema hash execOk hasUp dir st with ⟨st1, e⟩
  cases e with
  | none => exact ⟨rfl, rfl⟩
  | some e0 => exact ⟨rfl, rfl⟩

/-- C10: on a migration name without a parsable leading version, both
`logMigration` and `unlogMigration` return normally and leave the ledger
unchanged. -/
theorem c10_unparsable_name_noop (hash : String → String)
    (dir : List FsFile) (ledger : List AppliedMigration) (name : String)
    (h : extractVersion name = none) :
    logMigration hash dir ledger name = .ok ledger ∧
      unlogMigration ledger name = ledger := by
  constructor
  · simp only [logMigration, h]
  · simp only [unlogMigration, h]

/-- C2: with a collision-free digest, an applied row recorded as the hash of
the apply-time content whose file now has different content makes the run
throw the tamper error with the recorded and current digests, before any
pending migration executes and with the state unmodified; and the digest is
a function of the byte content alone. -/
theorem c2_tamper_detected (hash : String → String)
    (execOk hasUp : FsFile → Bool) (dir : List FsFile) (st : MigState)
    (pre : List AppliedMigration) (row : AppliedMigration)
    (rest : List AppliedMigration) (f : FsFile) (c0 : String)
    (p : List MigrationFile)
    (hinj : Function.Injective hash)
    (hsplit : sortLedger st.ledger = pre ++ row :: rest)
    (hpre : ∀ r ∈ pre, rowOk hash dir r = true)
    (hrec : row.md5 = hash c0)
    (hf : findFile dir row.name = some f)
    (hdiff : f.content ≠ c0)
    (hp : getPendingMigration (sortLedger st.ledger) (dir.map (·.name))
      = .ok p) :
    runMigrationForSchema hash execOk hasUp dir st =
      (st, some (.tamperedMigration row.name row.md5 (getFileMd5 hash f))) ∧
    (∀ g1 g2 : FsFile, g1.content = g2.content →
      getFileMd5 hash g1 = getFileMd5 hash g2) := by
  have hmd : getFileMd5 hash f ≠ row.md5 := by
    rw [hrec]
    intro h
    exact hdiff (hinj h)
  have he := executed_tampered hash dir pre row rest f hpre hf hmd
  rw [← hsplit] at he
  exact ⟨run_of_executed_error hash execOk hasUp dir st p _ hp he,
    fun g1 g2 h => congrArg hash h⟩

/-- Witness for C2: an applied `1-init.sql` whose on-disk content was edited
after being applied. -/
theorem c2_tamper_detected_witness :
    runMigrationForSchema (fun s => s) (fun _ => true) (fun _ => true)
        [⟨"1-init.sql", "EDITED"⟩] ⟨[⟨1, "1-init.sql", "create"⟩], []⟩ =
      (⟨[⟨1, "1-init.sql", "create"⟩], []⟩,
        some (.tamperedMigration "1-init.sql" "create"
          (getFileMd5 (fun s => s) ⟨"1-init.sql", "EDITED"⟩))) ∧
    (∀ g1 g2 : FsFile, g1.content = g2.content →
      getFileMd5 (fun s => s) g1 = getFileMd5 (fun s => s) g2) :=
  c2_tamper_detected (fun s => s) (fun _ => true) (fun _ => true)
    [⟨"1-init.sql", "EDITED"⟩] ⟨[⟨1, "1-init.sql", "create"⟩], []⟩
    [] ⟨1, "1-init.sql", "create"⟩ [] ⟨"1-init.sql", "EDITED"⟩ "create" []
    (fun a b h => h) (by decide) (by intro r hr; simp at hr) rfl (by decide)
    (by decide) (by decide)

/-- C3: an applied row whose recorded file is absent from the directory
makes the run throw the applied-migration-missing error before any pending
migration executes, with the ledger (the whole state) unchanged. -/
theorem c3_missing_applied_file_detected (hash : String → String)
    (execOk hasUp : FsFile → Bool) (dir : List FsFile) (st : MigState)
    (pre : List AppliedMigration) (row : AppliedMigration)
    (rest : List AppliedMigration) (p : List MigrationFile)
    (hsplit : sortLedger st.ledger = pre ++ row :: rest)
    (hpre : ∀ r ∈ pre, rowOk hash dir r = true)
    (hf : findFile dir row.name = none)
    (hp : getPendingMigration (sortLedger st.ledger) (dir.map (·.name))
      = .ok p) :
    runMigrationForSchema hash execOk hasUp dir st =
      (st, some (.appliedMigrationMissing row.name)) := by
  have he := executed_missing hash dir pre row rest hpre hf
  rw [← hsplit] at he
  exact run_of_executed_error hash execOk hasUp dir st p _ hp he

/-- Witness for C3: the file of the applied `1-init.sql` row was deleted. -/
theorem c3_missing_applied_file_detected_witness :
    runMigrationForSchema (fun s => s) (fun _ => true) (fun _ => true)
        [] ⟨[⟨1, "1-init.sql", "create"⟩], []⟩ =
      (⟨[⟨1, "1-init.sql", "create"⟩], []⟩,
        some (.appliedMigrationMissing "1-init.sql")) :=
  c3_missing_applied_file_detected (fun s => s) (fun _ => true)
    (fun _ => true) [] ⟨[⟨1, "1-init.sql", "create"⟩], []⟩
    [] ⟨1, "1-init.sql", "create"⟩ [] []
    (by decide) (by intro r hr; simp at hr) (by decide) (by decide)

/-- C4: when the run reaches pending migration `n` (all earlier pending
migrations committed) and `n` fails — SQL error, thrown script exception, or
a script without an `up` export — the run stops with a migration-failed
error for `n`; `n` leaves no committed effect and no ledger row, no later
pending migration runs, and the earlier migrations of the run keep their
effects and ledger rows. -/
theorem c4_failed_migration_contained (hash : String → String)
    (execOk hasUp : FsFile → Bool) (dir : List FsFile) (st : MigState)
    (pre : List MigrationFile) (n : MigrationFile)
    (post : List MigrationFile) (ns : List String)
    (hwf : ∀ r ∈ st.ledger, extractVersion r.name = some r.version)
    (hp : getPendingMigration (sortLedger st.ledger) (dir.map (·.name))
      = .ok (pre ++ n :: post))
    (he : executed hash dir (sortLedger st.ledger) = .ok ns)
    (hpreOk : ∀ m ∈ pre, upOk execOk hasUp dir m = true)
    (hnFail : upOk execOk hasUp dir n = false) :
    (∃ cause, runMigrationForSchema hash execOk hasUp dir st =
      ({ ledger := st.ledger ++ pre.map (rowFor hash dir),
         effects := st.effects ++ pre.map (·.name) },
        some (.migrationFailed n.name cause))) ∧
    ¬ n.name ∈ pre.map (·.name) ∧
    (∀ r ∈ pre.map (rowFor hash dir), ¬ r.version = n.version) ∧
    (¬ n.version ∈ st.ledger.map (·.version) →
      ¬ n.version ∈
        (st.ledger ++ pre.map (rowFor hash dir)).map (·.version)) ∧
    (∀ m ∈ post, ¬ m.name ∈ pre.map (·.name) ∧ ¬ m.name = n.name) := by
  have hwfs : ∀ r ∈ sortLedger st.ledger,
      extractVersion r.name = some r.version :=
    fun r hr => hwf r ((sortLedger_mem st.ledger r).mp hr)
  have hfacts := pending_facts _ _ _ hp
  have hns : ns = (sortLedger st.ledger).map (·.name) :=
    (executed_ok_inv hash dir _ ns he).1
  have hrun := run_of_checks_ok hash execOk hasUp dir st _ ns hp he
  have hfilter : (pre ++ n :: post).filter
      (fun m => !(ns.contains m.name)) = pre ++ n :: post := by
    rw [hns]
    exact pending_filter_eq_self _ _ hwfs
      (fun m hm => ⟨(hfacts m hm).2.2.1, (hfacts m hm).2.2.2⟩)
  rw [hfilter] at hrun
  have hpreBoth : ∀ m ∈ pre, extractVersion m.name = some m.version ∧
      upOk execOk hasUp dir m = true :=
    fun m hm => ⟨(hfacts m (List.mem_append_left _ hm)).2.2.1, hpreOk m hm⟩
  rw [runPending_append_ok hash execOk hasUp dir pre (n :: post) st
    hpreBoth] at hrun
  rcases up_error_of_not_upOk execOk hasUp dir
      { ledger := st.ledger ++ pre.map (rowFor hash dir),
        effects := st.effects ++ pre.map (·.name) } n hnFail
    with ⟨cause, hup⟩
  have hstep : runMigrationForSchema hash execOk hasUp dir st =
      ({ ledger := st.ledger ++ pre.map (rowFor hash dir),
         effects := st.effects ++ pre.map (·.name) },
        some (.migrationFailed n.name cause)) := by
    rw [hrun]
    simp only [runPending, hup]
  have hnodup := pending_nodup_versions _ _ _ hp
  rw [List.map_append, List.map_cons] at hnodup
  rcases List.nodup_append.mp hnodup with ⟨_, hnd2, hdisj⟩
  have hNpost : ¬ n.version ∈ post.map (·.version) :=
    (List.nodup_cons.mp hnd2).1
  have hpreNotN : ∀ m ∈ pre, ¬ m.version = n.version := by
    intro m hm hv
    have hmem : m.version ∈ pre.map (·.version) :=
      List.mem_map.mpr ⟨m, hm, rfl⟩
    have := hdisj hmem
    rw [hv] at this
    exact this (List.mem_cons_self _ _)
  have hxn : extractVersion n.name = some n.version :=
    (hfacts n (List.mem_append_right _ (List.mem_cons_self n post))).2.2.1
  refine ⟨⟨cause, hstep⟩, ?_, ?_, ?_, ?_⟩
  · intro hmem
    rcases List.mem_map.mp hmem with ⟨m, hm, hname⟩
    have hxm : extractVersion m.name = some m.version :=
      (hfacts m (List.mem_append_left _ hm)).2.2.1
    rw [hname, hxn] at hxm
    injection hxm with hv
    exact hpreNotN m hm hv.symm
  · intro r hr hv
    rcases List.mem_map.mp hr with ⟨m, hm, hrm⟩
    have : (rowFor hash dir m).version = m.version := rfl
    rw [← hrm] at hv
    rw [this] at hv
    exact hpreNotN m hm hv
  · intro hnotin hmem
    rw [List.map_append, List.mem_append] at hmem
    rcases hmem with hmem | hmem
    · exact hnotin hmem
    · rcases List.mem_map.mp hmem with ⟨r, hr, hrv⟩
      exact absurd hrv (fun h => (by
        rcases List.mem_map.mp hr with ⟨m, hm, hrm⟩
        have : (rowFor hash dir m).version = m.version := rfl
        rw [← hrm, this] at h
        exact hpreNotN m hm h : False))
  · intro m hm
    have hxm : extractVersion m.name = some m.version :=
      (hfacts m (List.mem_append_right _
        (List.mem_cons_of_mem n hm))).2.2.1
    have hmv : m.version ∈ post.map (·.version) :=
      List.mem_map.mpr ⟨m, hm, rfl⟩
    constructor
    · intro hmem
      rcases List.mem_map.mp hmem with ⟨m2, hm2, hname⟩
      have hxm2 : extractVersion m2.name = some m2.version :=
        (hfacts m2 (List.mem_append_left _ hm2)).2.2.1
      rw [hname, hxm] at hxm2
      injection hxm2 with hv
      have hmem2 : m2.version ∈ pre.map (·.version) :=
        List.mem_map.mpr ⟨m2, hm2, rfl⟩
      have := hdisj hmem2
      rw [hv] at hmv
      exact this (List.mem_cons_of_mem _ hmv)
    · intro hname
      rw [hname, hxn] at hxm
      injection hxm with hv
      rw [← hv] at hmv
      exact hNpost hmv

/-- Witness for C4: `1-init.sql` commits, `2-add-index.sql` fails, nothing
later runs and only version 1 is recorded. -/
theorem c4_failed_migration_contained_witness :
    (∃ cause, runMigrationForSchema (fun s => s)
        (fun f => !(f.name == "2-add-index.sql")) (fun _ => true)
        [⟨"1-init.sql", "create table t"⟩,
          ⟨"2-add-index.sql", "create index i"⟩] ⟨[], []⟩ =
      ({ ledger := [] ++ ([⟨"1-init.sql", 1⟩] : List MigrationFile).map
          (rowFor (fun s => s)
            [⟨"1-init.sql", "create table t"⟩,
              ⟨"2-add-index.sql", "create index i"⟩]),
         effects := [] ++ ([⟨"1-init.sql", 1⟩] :
           List MigrationFile).map (·.name) },
        some (.migrationFailed "2-add-index.sql" cause))) ∧
    ¬ "2-add-index.sql" ∈ ([⟨"1-init.sql", 1⟩] :
      List MigrationFile).map (·.name) ∧
    (∀ r ∈ ([⟨"1-init.sql", 1⟩] : List MigrationFile).map
        (rowFor (fun s => s)
          [⟨"1-init.sql", "create table t"⟩,
            ⟨"2-add-index.sql", "create index i"⟩]),
      ¬ r.version = 2) ∧
    (¬ 2 ∈ ([] : List AppliedMigration).map (·.version) →
      ¬ 2 ∈ (([] : List AppliedMigration) ++
        ([⟨"1-init.sql", 1⟩] : List MigrationFile).map
          (rowFor (fun s => s)
            [⟨"1-init.sql", "create table t"⟩,
              ⟨"2-add-index.sql", "create index i"⟩])).map (·.version)) ∧
    (∀ m ∈ ([] : List MigrationFile),
      ¬ m.name ∈ ([⟨"1-init.sql", 1⟩] :
        List MigrationFile).map (·.name) ∧
      ¬ m.name = "2-add-index.sql") :=
  c4_failed_migration_contained (fun s => s)
    (fun f => !(f.name == "2-add-index.sql")) (fun _ => true)
    [⟨"1-init.sql", "create table t"⟩, ⟨"2-add-index.sql", "create index i"⟩]
    ⟨[], []⟩ [⟨"1-init.sql", 1⟩] ⟨"2-add-index.sql", 2⟩ [] []
    (by intro r hr; simp at hr) (by decide) (by decide)
    (by decide) (by decide)

/-- C5: when every pending migration succeeds, the run commits them one at a
time in strictly increasing version order and appends, for each, a ledger
row whose digest is freshly computed from the file's current content. -/
theorem c5_success_commits_in_order (hash : String → String)
    (execOk hasUp : FsFile → Bool) (dir : List FsFile) (st : MigState)
    (p : List MigrationFile) (ns : List String)
    (hwf : ∀ r ∈ st.ledger, extractVersion r.name = some r.version)
    (hp : getPendingMigration (sortLedger st.ledger) (dir.map (·.name))
      = .ok p)
    (he : executed hash dir (sortLedger st.ledger) = .ok ns)
    (hok : ∀ m ∈ p, upOk execOk hasUp dir m = true) :
    runMigrationForSchema hash execOk hasUp dir st =
      ({ ledger := st.ledger ++ p.map (rowFor hash dir),
         effects := st.effects ++ p.map (·.name) }, none) ∧
    (p.map (·.version)).Pairwise (· < ·) ∧
    (∀ m ∈ p, ∃ f, findFile dir m.name = some f ∧
      rowFor hash dir m = ⟨m.version, m.name, getFileMd5 hash f⟩) := by
  have hwfs : ∀ r ∈ sortLedger st.ledger,
      extractVersion r.name = some r.version :=
    fun r hr => hwf r ((sortLedger_mem st.ledger r).mp hr)
  have hfacts := pending_facts _ _ _ hp
  have hns : ns = (sortLedger st.ledger).map (·.name) :=
    (executed_ok_inv hash dir _ ns he).1
  have hrun := run_of_checks_ok hash execOk hasUp dir st _ ns hp he
  have hfilter : p.filter (fun m => !(ns.contains m.name)) = p := by
    rw [hns]
    exact pending_filter_eq_self _ _ hwfs
      (fun m hm => ⟨(hfacts m hm).2.2.1, (hfacts m hm).2.2.2⟩)
  rw [hfilter] at hrun
  rw [runPending_all_ok hash execOk hasUp dir p st
    (fun m hm => ⟨(hfacts m hm).2.2.1, hok m hm⟩)] at hrun
  refine ⟨hrun, ?_, ?_⟩
  · rcases getPendingMigration_eq_ok _ _ _ hp with ⟨_, hseq⟩
    rw [checkSequence_ok p _ hseq]
    exact List.pairwise_lt_range' _ _
  · intro m hm
    rcases upOk_findFile execOk hasUp dir m (hok m hm) with ⟨f, hf⟩
    exact ⟨f, hf, rowFor_eq hash dir m f hf⟩

/-- Witness for C5: empty ledger, `1-init.sql` then `2-add-index.sql`, both
succeed; the ledger ends with rows for versions 1 and 2 stamped with the
files' apply-time contents. -/
theorem c5_success_commits_in_order_witness :
    runMigrationForSchema (fun s => s) (fun _ => true) (fun _ => true)
        [⟨"1-init.sql", "create table t"⟩,
          ⟨"2-add-index.sql", "create index i"⟩] ⟨[], []⟩ =
      (⟨[⟨1, "1-init.sql", "create table t"⟩,
          ⟨2, "2-add-index.sql", "create index i"⟩],
        ["1-init.sql", "2-add-index.sql"]⟩, none) := by
  have h := (c5_success_commits_in_order (fun s => s) (fun _ => true)
    (fun _ => true)
    [⟨"1-init.sql", "create table t"⟩, ⟨"2-add-index.sql", "create index i"⟩]
    ⟨[], []⟩ [⟨"1-init.sql", 1⟩, ⟨"2-add-index.sql", 2⟩] []
    (by intro r hr; simp at hr) (by decide) (by decide)
    (by decide)).1
  exact h.trans (by decide)

/-- C6: after a run that finished without error, running again over the same
directory computes an empty pending set, executes nothing, and returns the
state — ledger included — exactly as the first run left it. -/
theorem c6_second_run_noop (hash : String → String)
    (execOk hasUp : FsFile → Bool) (dir : List FsFile) (st st1 : MigState)
    (hwf : ∀ r ∈ st.ledger, extractVersion r.name = some r.version)
    (h1 : runMigrationForSchema hash execOk hasUp dir st = (st1, none)) :
    runMigrationForSchema hash execOk hasUp dir st1 = (st1, none) ∧
    getPendingMigration (sortLedger st1.ledger) (dir.map (·.name))
      = .ok [] := by
  cases hp : getPendingMigration (sortLedger st.ledger) (dir.map (·.name)) with
  | error e =>
    rw [run_of_pending_error hash execOk hasUp dir st e hp] at h1
    simp at h1
  | ok p =>
    cases he : executed hash dir (sortLedger st.ledger) with
    | error e =>
      rw [run_of_executed_error hash execOk hasUp dir st p e hp he] at h1
      simp at h1
    | ok ns =>
      have hwfs : ∀ r ∈ sortLedger st.ledger,
          extractVersion r.name = some r.version :=
        fun r hr => hwf r ((sortLedger_mem st.ledger r).mp hr)
      have hfacts := pending_facts _ _ _ hp
      rcases executed_ok_inv hash dir _ ns he with ⟨hns, hrowsOk⟩
      have hrun := run_of_checks_ok hash execOk hasUp dir st p ns hp he
      have hfilter : p.filter (fun m => !(ns.contains m.name)) = p := by
        rw [hns]
        exact pending_filter_eq_self _ _ hwfs
          (fun m hm => ⟨(hfacts m hm).2.2.1, (hfacts m hm).2.2.2⟩)
      rw [hfilter] at hrun
      rw [hrun] at h1
      rcases runPending_none_inv hash execOk hasUp dir p st st1
        (fun m hm => (hfacts m hm).2.2.1) h1 with ⟨hallok, hst1⟩
      have hled : st1.ledger = st.ledger ++ p.map (rowFor hash dir) := by
        rw [hst1]
      have hnewRow : ∀ m ∈ p, rowOk hash dir (rowFor hash dir m) = true := by
        intro m hm
        rcases upOk_findFile execOk hasUp dir m (hallok m hm) with ⟨f, hf⟩
        rw [rowFor_eq hash dir m f hf, rowOk_iff]
        exact ⟨f, hf, rfl⟩
      have hcover : ∀ m ∈ allMigrationsOf (dir.map (·.name)),
          m.version ∈ st1.ledger.map (·.version) := by
        intro m hm
        by_cases hap : m.version ∈ (sortLedger st.ledger).map (·.version)
        · rw [hled, List.map_append, List.mem_append]
          left
          exact (sortLedger_map_version_mem st.ledger m.version).mp hap
        · have hmp : m ∈ p := by
            rcases getPendingMigration_eq_ok _ _ _ hp with ⟨hpdef, _⟩
            rw [hpdef, List.mem_filter]
            refine ⟨hm, ?_⟩
            rw [contains_false_of_not_mem hap]
            rfl
          rw [hled, List.map_append, List.mem_append]
          right
          exact List.mem_map.mpr
            ⟨rowFor hash dir m, List.mem_map.mpr ⟨m, hmp, rfl⟩, rfl⟩
      have hnil : (allMigrationsOf (dir.map (·.name))).filter
          (fun m => !(((sortLedger st1.ledger).map (·.version)).contains
            m.version)) = [] := by
        rw [List.filter_eq_nil_iff]
        intro m hm
        have hv : m.version ∈ (sortLedger st1.ledger).map (·.version) :=
          (sortLedger_map_version_mem st1.ledger m.version).mpr (hcover m hm)
        rw [contains_true_of_mem hv]
        simp
      have hp2 : getPendingMigration (sortLedger st1.ledger)
          (dir.map (·.name)) = .ok [] := by
        simp only [getPendingMigration, hnil, checkSequence]
      have hrows2 : ∀ r ∈ sortLedger st1.ledger, rowOk hash dir r = true := by
        intro r hr
        rw [sortLedger_mem] at hr
        rw [hled, List.mem_append] at hr
        rcases hr with hr | hr
        · exact hrowsOk r ((sortLedger_mem st.ledger r).mpr hr)
        · rcases List.mem_map.mp hr with ⟨m, hmp, hrm⟩
          rw [← hrm]
          exact hnewRow m hmp
      have he2 := executed_ok_of_all hash dir (sortLedger st1.ledger) hrows2
      have hrun2 := run_of_checks_ok hash execOk hasUp dir st1 []
        ((sortLedger st1.ledger).map (·.name)) hp2 he2
      rw [List.filter_nil] at hrun2
      exact ⟨hrun2, hp2⟩

/-- Witness for C6: a successful first run over `1-init.sql` from an empty
ledger, then an identical second run that changes nothing. -/
theorem c6_second_run_noop_witness :
    runMigrationForSchema (fun s => s) (fun _ => true) (fun _ => true)
        [⟨"1-init.sql", "create table t"⟩]
        ⟨[⟨1, "1-init.sql", "create table t"⟩], ["1-init.sql"]⟩ =
      (⟨[⟨1, "1-init.sql", "create table t"⟩], ["1-init.sql"]⟩, none) ∧
    getPendingMigration
        (sortLedger [⟨1, "1-init.sql", "create table t"⟩])
        (([⟨"1-init.sql", "create table t"⟩] : List FsFile).map (·.name))
      = .ok [] :=
  c6_second_run_noop (fun s => s) (fun _ => true) (fun _ => true)
    [⟨"1-init.sql", "create table t"⟩] ⟨[], []⟩
    ⟨[⟨1, "1-init.sql", "create table t"⟩], ["1-init.sql"]⟩
    (by intro r hr; simp at hr) (by decide)

/-- C8: two distinct discovered files parsing to the same not-yet-applied
version make the validator throw a sequence error, and the namespace run
fails with the state untouched; the duplicate is never silently resolved. -/
theorem c8_duplicate_version_fails (applied : List AppliedMigration)
    (files : List String) (n1 n2 : String) (v : Nat)
    (h1 : n1 ∈ files) (h2 : n2 ∈ files) (hne : n1 ≠ n2)
    (e1 : hasMigrationExt n1 = true) (e2 : hasMigrationExt n2 = true)
    (x1 : extractVersion n1 = some v) (x2 : extractVersion n2 = some v)
    (hv : ¬ v ∈ applied.map (·.version)) :
    (∃ expected foundFile, getPendingMigration applied files
      = .error (.sequenceViolation expected foundFile)) ∧
    (∀ (hash : String → String) (execOk hasUp : FsFile → Bool)
      (dir : List FsFile) (st : MigState),
      sortLedger st.ledger = applied → dir.map (·.name) = files →
      ∃ e, runMigrationForSchema hash execOk hasUp dir st = (st, some e)) := by
  have herr : ∃ expected foundFile, getPendingMigration applied files
      = .error (.sequenceViolation expected foundFile) := by
    rcases checkSequence_ok_or
        ((allMigrationsOf files).filter
          (fun m => !((applied.map (·.version)).contains m.version)))
        ((applied.map (·.version)).getLast?.getD 0 + 1) with hok | ⟨a, b, he⟩
    · exfalso
      have hpend : getPendingMigration applied files = .ok
          ((allMigrationsOf files).filter
            (fun m => !((applied.map (·.version)).contains m.version))) := by
        simp only [getPendingMigration, hok]
      have hnodup := pending_nodup_versions applied files _ hpend
      have hcont : ((applied.map (·.version)).contains v) = false :=
        contains_false_of_not_mem hv
      have hm1 : (⟨n1, v⟩ : MigrationFile) ∈ (allMigrationsOf files).filter
          (fun m => !((applied.map (·.version)).contains m.version)) := by
        rw [List.mem_filter]
        refine ⟨(mem_allMigrationsOf files _).mpr
          ((mem_parsedMigrations files _).mpr ⟨h1, e1, x1⟩), ?_⟩
        rw [hcont]
        rfl
      have hm2 : (⟨n2, v⟩ : MigrationFile) ∈ (allMigrationsOf files).filter
          (fun m => !((applied.map (·.version)).contains m.version)) := by
        rw [List.mem_filter]
        refine ⟨(mem_allMigrationsOf files _).mpr
          ((mem_parsedMigrations files _).mpr ⟨h2, e2, x2⟩), ?_⟩
        rw [hcont]
        rfl
      have heq := List.inj_on_of_nodup_map hnodup hm1 hm2 rfl
      injection heq with heq _
      exact hne heq
    · exact ⟨a, b, getPendingMigration_eq_error applied files _ he⟩
  refine ⟨herr, ?_⟩
  intro hash execOk hasUp dir st hsl hdm
  rcases herr with ⟨a, b, he⟩
  refine ⟨.sequenceViolation a b, ?_⟩
  apply run_of_pending_error
  rw [hsl, hdm]
  exact he

/-- Witness for C8: two files both parsing to version 1 on an empty
ledger. -/
theorem c8_duplicate_version_fails_witness :
    (∃ expected foundFile,
      getPendingMigration [] ["1-a.sql", "1-b.sql"]
        = .error (.sequenceViolation expected foundFile)) ∧
    (∀ (hash : String → String) (execOk hasUp : FsFile → Bool)
      (dir : List FsFile) (st : MigState),
      sortLedger st.ledger = [] → dir.map (·.name) = ["1-a.sql", "1-b.sql"] →
      ∃ e, runMigrationForSchema hash execOk hasUp dir st = (st, some e)) :=
  c8_duplicate_version_fails [] ["1-a.sql", "1-b.sql"] "1-a.sql" "1-b.sql" 1
    (by decide) (by decide) (by decide) (by decide) (by decide) (by decide)
    (by decide) (by decide)

/-- Witness for C10 at the versionless name `init.sql`. -/
theorem c10_unparsable_name_noop_witness :
    logMigration (fun s => s) [] [⟨1, "1-a.sql", "x"⟩] "init.sql"
        = .ok [⟨1, "1-a.sql", "x"⟩] ∧
      unlogMigration [⟨1, "1-a.sql", "x"⟩] "init.sql"
        = [⟨1, "1-a.sql", "x"⟩] :=
  c10_unparsable_name_noop (fun s => s) [] [⟨1, "1-a.sql", "x"⟩] "init.sql"
    (by decide)

end DbMigrate
